import Mathlib

/-!
Verification of the annotation-transformation core of the `your-code-my-code`
extension: a shallow embedding of the pure functions in `annotationSystem`
(`processAnnotationForChangeAndClean`, `updateAndCleanAnnotationsForContentChange`,
`updateAndCleanAnnotationsForCommit`, `addAnnotationsForSignificantChanges`,
`squashOverlappingAnnotations`, `applyChange`, `extractContentChanges`), together
with theorems settling the spec's claims about them.

Conventions of the embedding:
* JavaScript numbers holding line counts are modelled as `Int` (line shifts can be
  negative); the 0-based coordinates of host-editor events are `Nat`.
* ISO-8601 timestamp strings (`timestamp`, `lastUpdated`, and the `now` readings
  of the clock) are modelled as `Int`: ISO-8601 strings compare lexicographically
  exactly in chronological order, so the JavaScript string comparison on them is the
  integer order on their dates.
* `Array.prototype.sort` is a stable comparison sort; it is modelled by the stable
  `List.insertionSort` with the corresponding total preorder.
* The ambient clock (`new Date().toISOString()`) is passed explicitly as a `now`
  argument to the functions that read it.
-/

/-- A highlighted range in the document (source: `dataStructures.ts`, `Annotation`). -/
structure Annotation where
  startLine : Int
  endLine : Int
  timestamp : Int
  type : String
deriving DecidableEq, Repr

/-- The current annotation snapshot for a document (source: `dataStructures.ts`, `Snapshot`). -/
structure Snapshot where
  highlightedRanges : List Annotation
  lastUpdated : Int
  documentVersion : Int
deriving DecidableEq, Repr

/-- Content change information extracted from VS Code events
(source: `dataStructures.ts`, `ContentChange`). -/
structure ContentChange where
  startLine : Int
  endLine : Int
  startCharacter : Int
  endCharacter : Int
  text : String
  rangeLength : Int
  addedLines : Int
  deletedLines : Int
deriving DecidableEq, Repr

/-- Document change event context (source: `dataStructures.ts`, `Commit`). -/
structure Commit where
  documentVersion : Int
  isSignificant : Bool
  contentChanges : List ContentChange
deriving DecidableEq, Repr

/-- A host-editor change event, flattened: `range.start.line`, `range.start.character`,
`range.end.line`, `range.end.character`, `text`, `rangeLength` of a
`vscode.TextDocumentContentChangeEvent`.  VS Code coordinates are 0-based naturals. -/
structure TextDocumentContentChangeEvent where
  startLine : Nat
  startCharacter : Nat
  endLine : Nat
  endCharacter : Nat
  text : String
  rangeLength : Nat
deriving DecidableEq, Repr

/-- Convert VS Code content changes to the `ContentChange` format
(source: `extractContentChanges`).  `addedLines` counts the newline characters of the
inserted text (`(change.text.match` of newline `|| []).length`, and `0` for the empty
string, which the count of an empty string already is); `deletedLines` is
`change.range.end.line - change.range.start.line` when `rangeLength > 0`, else `0`;
line numbers are converted to 1-based. -/
def extractContentChanges (vsCodeChanges : List TextDocumentContentChangeEvent) :
    List ContentChange :=
  vsCodeChanges.map fun change =>
    let addedLines : Int := ((change.text.toList.count '\n' : Nat) : Int)
    let deletedLines : Int :=
      if change.rangeLength > 0 then (change.endLine : Int) - (change.startLine : Int) else 0
    { startLine := (change.startLine : Int) + 1
      endLine := (change.endLine : Int) + 1
      startCharacter := (change.startCharacter : Int)
      endCharacter := (change.endCharacter : Int)
      text := change.text
      rangeLength := (change.rangeLength : Int)
      addedLines := addedLines
      deletedLines := deletedLines }

/-- Process one annotation through one atomic replacement operation
(source: `processAnnotationForChangeAndClean`). -/
def processAnnotationForChangeAndClean (ann : Annotation) (change : ContentChange) :
    List Annotation :=
  let deleteStart := change.startLine
  let deleteEnd := change.endLine
  let numNetLineChange := change.addedLines - change.deletedLines
  -- Case 1: annotation is completely before the replacement
  if ann.endLine < deleteStart then
    [ ann]
  -- Case 2: annotation is completely after the replacement
  else if ann.startLine > deleteEnd then
    [{ ann with startLine := ann.startLine + numNetLineChange
                endLine := ann.endLine + numNetLineChange }]
  else
    -- Case 3: annotation overlaps with the replacement range
    let before : List Annotation :=
      if ann.startLine < deleteStart then
        [{ ann with startLine := ann.startLine, endLine := deleteStart - 1 }]
      else []
    let after : List Annotation :=
      if ann.endLine > deleteEnd then
        let afterStart := deleteEnd + 1 + numNetLineChange
        let numRemainingLines := ann.endLine - deleteEnd
        let afterEnd := afterStart + numRemainingLines - 1
        [{ ann with startLine := afterStart, endLine := afterEnd }]
      else []
    (before ++ after).filter fun a => a.startLine ≤ a.endLine

/-- Apply line shifts and cleaning for a single change across the whole list
(source: `updateAndCleanAnnotationsForContentChange`). -/
def updateAndCleanAnnotationsForContentChange (anns : List Annotation)
    (change : ContentChange) : List Annotation :=
  anns.flatMap fun ann => processAnnotationForChangeAndClean ann change

/-- Ascending-by-`startLine` total preorder on content changes (the comparator
`(a, b) => a.startLine - b.startLine`). -/
def ascStart (a b : ContentChange) : Prop := a.startLine ≤ b.startLine

instance : DecidableRel ascStart := fun a b =>
  inferInstanceAs (Decidable (a.startLine ≤ b.startLine))

instance : IsTotal ContentChange ascStart := ⟨fun a b => Int.le_total a.startLine b.startLine⟩

instance : IsTrans ContentChange ascStart := ⟨fun _ _ _ hab hbc => Int.le_trans hab hbc⟩

/-- Descending-by-`startLine` total preorder on content changes (the comparator
`(a, b) => b.startLine - a.startLine` of the source). -/
def descStart (a b : ContentChange) : Prop := b.startLine ≤ a.startLine

instance : DecidableRel descStart := fun a b =>
  inferInstanceAs (Decidable (b.startLine ≤ a.startLine))

instance : IsTotal ContentChange descStart := ⟨fun a b => Int.le_total b.startLine a.startLine⟩

instance : IsTrans ContentChange descStart := ⟨fun _ _ _ hab hbc => Int.le_trans hbc hab⟩

/-- Apply all changes of a commit, higher start lines first
(source: `updateAndCleanAnnotationsForCommit`). -/
def updateAndCleanAnnotationsForCommit (anns : List Annotation)
    (changes : List ContentChange) : List Annotation :=
  let sortedChanges := List.insertionSort descStart changes
  sortedChanges.foldl (fun acc change => updateAndCleanAnnotationsForContentChange acc change)
    anns

/-- Create new annotations for significant changes, in the original order of the
changes (source: `addAnnotationsForSignificantChanges`; the clock reading used for
the timestamps is passed in as `now`). -/
def addAnnotationsForSignificantChanges (now : Int) (contentChanges : List ContentChange) :
    List Annotation :=
  contentChanges.map fun change =>
    { startLine := change.startLine
      endLine := change.startLine + change.addedLines
      timestamp := now
      type := "ai-generated" }

/-- Ascending-by-`startLine` total preorder on annotations (the comparator
`(a, b) => a.startLine - b.startLine` of the source). -/
def leStart (a b : Annotation) : Prop := a.startLine ≤ b.startLine

instance : DecidableRel leStart := fun a b =>
  inferInstanceAs (Decidable (a.startLine ≤ b.startLine))

instance : IsTotal Annotation leStart := ⟨fun a b => Int.le_total a.startLine b.startLine⟩

instance : IsTrans Annotation leStart := ⟨fun _ _ _ hab hbc => Int.le_trans hab hbc⟩

/-- The left-to-right merging scan of `squashOverlappingAnnotations`: `last` is the
annotation currently at the end of the `squashed` array, the list argument is the
remainder of the sorted input. -/
def squashGo (last : Annotation) : List Annotation → List Annotation
  | [] => [ last]
  | current :: rest =>
    if current.startLine ≤ last.endLine + 1 then
      squashGo
        { last with
            endLine := max last.endLine current.endLine
            timestamp :=
              if last.timestamp < current.timestamp then current.timestamp
              else last.timestamp }
        rest
    else
      last :: squashGo current rest

/-- Merge overlapping or adjacent annotations into single ranges
(source: `squashOverlappingAnnotations`). -/
def squashOverlappingAnnotations (anns : List Annotation) : List Annotation :=
  if anns.length ≤ 1 then
    anns
  else
    match List.insertionSort leStart anns with
    | [] => []
    | first :: rest => squashGo first rest

/-- Apply a document change to the current annotation state (source: `applyChange`;
the clock reading used for `lastUpdated` and new timestamps is passed in as `now`). -/
def applyChange (now : Int) (snapshot : Snapshot) (commit : Commit) : Snapshot :=
  let updatedRanges :=
    updateAndCleanAnnotationsForCommit snapshot.highlightedRanges commit.contentChanges
  let updatedRanges :=
    if commit.isSignificant then
      updatedRanges ++ addAnnotationsForSignificantChanges now commit.contentChanges
    else updatedRanges
  let updatedRanges := squashOverlappingAnnotations updatedRanges
  { highlightedRanges := updatedRanges
    lastUpdated := now
    documentVersion := commit.documentVersion }

/-! ### Spec-side definitions, written from the spec's words, for the
refinement / equivalence claims. -/

/-- The Range Transform as the spec's decision procedure words it (§4.1 and claim C1):
unchanged when entirely before, shifted by `delta` when entirely after, otherwise the
before-fragment exactly when `ann.startLine < edit.startLine` and the after-fragment
exactly when `ann.endLine > edit.endLine`, any fragment with `startLine > endLine`
discarded. -/
def rangeTransformSpec (ann : Annotation) (edit : ContentChange) : List Annotation :=
  let delta := edit.addedLines - edit.deletedLines
  if ann.endLine < edit.startLine then
    [ ann]
  else if ann.startLine > edit.endLine then
    [{ ann with startLine := ann.startLine + delta, endLine := ann.endLine + delta }]
  else
    ((if ann.startLine < edit.startLine then
        [{ ann with endLine := edit.startLine - 1 }]
      else []) ++
     (if ann.endLine > edit.endLine then
        [{ ann with
             startLine := edit.endLine + 1 + delta
             endLine := edit.endLine + 1 + delta + (ann.endLine - edit.endLine) - 1 }]
      else [])).filter fun a => a.startLine ≤ a.endLine

/-- The Batch Applier as the spec words it (§4.2 and claim C2): sort the edits by
`startLine` descending, then fold the single-edit Range Transform over the whole
annotation list once per edit, in that order. -/
def applyBatchSpec (anns : List Annotation) (edits : List ContentChange) :
    List Annotation :=
  (List.insertionSort descStart edits).foldl
    (fun acc edit => acc.flatMap fun ann => processAnnotationForChangeAndClean ann edit)
    anns

/-- Ascending-order batch application (claim C5): sort the edits by `startLine`
ascending, then fold the single-edit Range Transform, in that order. -/
def applyBatchAscending (anns : List Annotation) (edits : List ContentChange) :
    List Annotation :=
  (List.insertionSort ascStart edits).foldl
    (fun acc edit => acc.flatMap fun ann => processAnnotationForChangeAndClean ann edit)
    anns

/-- The Range Merger scan as the spec words it (§4.3 and claim C4): merge the next
range into the current one exactly when `next.startLine ≤ current.endLine + 1`, by
extending `current.endLine` to the maximum and keeping the later of the two
timestamps; otherwise close the current range and start a new one. -/
def mergeScanSpec (current : Annotation) : List Annotation → List Annotation
  | [] => [ current]
  | next :: rest =>
    if next.startLine ≤ current.endLine + 1 then
      mergeScanSpec
        { current with
            endLine := max current.endLine next.endLine
            timestamp :=
              if current.timestamp < next.timestamp then next.timestamp
              else current.timestamp }
        rest
    else
      current :: mergeScanSpec next rest

/-- The Range Merger as the spec words it (§4.3 and claim C4): empty and
single-element inputs are returned unchanged; otherwise sort ascending by
`startLine` and scan left to right with `mergeScanSpec`. -/
def mergeAnnotationsSpec (anns : List Annotation) : List Annotation :=
  if anns.length ≤ 1 then
    anns
  else
    match List.insertionSort leStart anns with
    | [] => []
    | first :: rest => mergeScanSpec first rest

/-! ### Well-formedness predicates and separation relations. -/

/-- A well-formed annotation: an inclusive range with `startLine ≤ endLine`. -/
def wfAnn (a : Annotation) : Prop := a.startLine ≤ a.endLine

instance (a : Annotation) : Decidable (wfAnn a) :=
  inferInstanceAs (Decidable (a.startLine ≤ a.endLine))

/-- A well-formed edit, as the edit-extraction adapter guarantees: 1-based
coordinates with `startLine ≤ endLine`, a non-negative added-line count, and a
deleted-line count bounded by the height of the deleted range. -/
def wfEdit (c : ContentChange) : Prop :=
  1 ≤ c.startLine ∧ c.startLine ≤ c.endLine ∧ 0 ≤ c.addedLines ∧
    c.deletedLines ≤ c.endLine - c.startLine

instance (c : ContentChange) : Decidable (wfEdit c) :=
  inferInstanceAs (Decidable (_ ∧ _ ∧ _ ∧ _))

/-- `a` lies strictly below `b` with a gap of at least one whole line: the two
neither overlap nor are 1-line-adjacent, and `a` comes first. -/
def gapped (a b : Annotation) : Prop := a.endLine + 1 < b.startLine

instance : DecidableRel gapped := fun a b =>
  inferInstanceAs (Decidable (a.endLine + 1 < b.startLine))

/-- `a` and `b` neither overlap nor are exactly 1-line-adjacent (symmetric form). -/
def sepAnn (a b : Annotation) : Prop := gapped a b ∨ gapped b a

instance : DecidableRel sepAnn := fun a b =>
  inferInstanceAs (Decidable (gapped a b ∨ gapped b a))

/-! ### Helper lemmas. -/

/-- The edit-extraction adapter only produces well-formed edits, provided the host
editor's ranges are well-formed (`range.start.line ≤ range.end.line`). -/
theorem extractContentChanges_wfEdit (evs : List TextDocumentContentChangeEvent)
    (h : ∀ ev ∈ evs, ev.startLine ≤ ev.endLine) :
    ∀ c ∈ extractContentChanges evs, wfEdit c := by
  intro c hc
  simp only [extractContentChanges, List.mem_map] at hc
  obtain ⟨ev, hev, rfl⟩ := hc
  have hle := h ev hev
  unfold wfEdit
  dsimp only
  refine ⟨by omega, by omega, by omega, ?_⟩
  split <;> omega

/-! ### Claim theorems. -/

/-- Claim C1: for every annotation and every edit, the Range Transform
`processAnnotationForChangeAndClean` computes exactly the spec's decision procedure
`rangeTransformSpec`: the annotation unchanged when entirely before the edit, both
bounds shifted by `delta = addedLines - deletedLines` when entirely after, and in the
overlap case at most two fragments — the before-fragment
`[ann.startLine, edit.startLine - 1]` exactly when `ann.startLine < edit.startLine`,
the after-fragment
`[edit.endLine + 1 + delta, edit.endLine + 1 + delta + (ann.endLine - edit.endLine) - 1]`
exactly when `ann.endLine > edit.endLine` — with inverted fragments discarded, and in
particular the empty list when the edit exactly covers the annotation. -/
theorem processAnnotationForChangeAndClean_eq_rangeTransformSpec
    (ann : Annotation) (change : ContentChange) :
    processAnnotationForChangeAndClean ann change = rangeTransformSpec ann change := rfl

/-- Claim C2: the Batch Applier `updateAndCleanAnnotationsForCommit` equals the
function that sorts the edits by `startLine` in descending order and then folds the
single-edit Range Transform over the whole annotation list once per edit, in that
order (`applyBatchSpec`). -/
theorem updateAndCleanAnnotationsForCommit_eq_applyBatchSpec
    (anns : List Annotation) (edits : List ContentChange) :
    updateAndCleanAnnotationsForCommit anns edits = applyBatchSpec anns edits := rfl

/-- Claim C8: the Annotation Synthesizer emits, for each edit in the list's original
order, exactly one annotation with `startLine = edit.startLine` and
`endLine = edit.startLine + edit.addedLines`, and its output has exactly the length
of the edit list. -/
theorem addAnnotationsForSignificantChanges_spec (now : Int) (edits : List ContentChange) :
    addAnnotationsForSignificantChanges now edits =
      edits.map (fun edit =>
        { startLine := edit.startLine
          endLine := edit.startLine + edit.addedLines
          timestamp := now
          type := "ai-generated" }) ∧
    (addAnnotationsForSignificantChanges now edits).length = edits.length := by
  refine ⟨rfl, ?_⟩
  simp [addAnnotationsForSignificantChanges]

/-- Claim C5: there are an annotation list and two chained edits for which folding
the Range Transform in ascending `startLine` order produces a different result than
the implemented descending-order batch application: the first (lower) edit's +3-line
shift corrupts the second edit's stated pre-batch coordinates when it is applied
first. -/
theorem ascending_batch_differs :
    ∃ (anns : List Annotation) (e₁ e₂ : ContentChange),
      applyBatchAscending anns [e₁, e₂] ≠
        updateAndCleanAnnotationsForCommit anns [e₁, e₂] := by
  refine ⟨[⟨8, 10, 0, "ai-generated"⟩],
    ⟨5, 5, 0, 0, "a\nb\nc\n", 0, 3, 0⟩, ⟨10, 10, 0, 0, "x", 1, 0, 0⟩, ?_⟩
  decide

/-- Claim C9 (counterexample to the claim as stated): two invocations of
`applyChange` on equal snapshot and commit inputs but at different ambient clock
readings return different result snapshots — the result depends on the clock through
`lastUpdated` (and, for significant commits, the new annotations' timestamps), so it
is not a function of the snapshot and commit alone. -/
theorem applyChange_clock_dependence :
    applyChange 1 ⟨[], 0, 0⟩ ⟨1, false, []⟩ ≠ applyChange 2 ⟨[], 0, 0⟩ ⟨1, false, []⟩ := by
  decide

/-- Claim C9 (amended): `applyChange` is a pure, deterministic function of its inputs
once the ambient clock reading is counted among them: any two invocations on equal
snapshots, equal commits, and equal clock readings return equal result snapshots. -/
theorem applyChange_deterministic (now now' : Int) (s s' : Snapshot) (c c' : Commit)
    (hn : now = now') (hs : s = s') (hc : c = c') :
    applyChange now s c = applyChange now' s' c' := by
  subst hn; subst hs; subst hc; rfl

/-- Witness for the amended claim C9 at concrete inputs. -/
theorem applyChange_deterministic_witness :
    applyChange 1 ⟨[⟨3, 4, 0, "ai-generated"⟩], 0, 0⟩ ⟨2, true, []⟩ =
      applyChange 1 ⟨[⟨3, 4, 0, "ai-generated"⟩], 0, 0⟩ ⟨2, true, []⟩ :=
  applyChange_deterministic 1 1 ⟨[⟨3, 4, 0, "ai-generated"⟩], 0, 0⟩
    ⟨[⟨3, 4, 0, "ai-generated"⟩], 0, 0⟩ ⟨2, true, []⟩ ⟨2, true, []⟩ rfl rfl rfl

/-- Claim C10: for every annotation with `1 ≤ startLine ≤ endLine` and every
well-formed edit (as the edit-extraction adapter guarantees), every annotation
returned by the Range Transform has `startLine ≥ 1`: line numbers never become zero
or negative, even though the code contains no explicit lower-bound clamp. -/
theorem processAnnotationForChangeAndClean_startLine_pos
    (ann : Annotation) (change : ContentChange)
    (h1 : 1 ≤ ann.startLine) (h2 : wfAnn ann) (h3 : wfEdit change) :
    ∀ b ∈ processAnnotationForChangeAndClean ann change, 1 ≤ b.startLine := by
  obtain ⟨he1, he2, he3, he4⟩ := h3
  intro b hb
  unfold processAnnotationForChangeAndClean at hb
  dsimp only at hb
  split at hb
  · simp only [List.mem_singleton] at hb
    subst hb
    exact h1
  · split at hb
    · simp only [List.mem_singleton] at hb
      subst hb
      dsimp only
      omega
    · simp only [List.mem_filter, List.mem_append] at hb
      obtain ⟨hmem, _⟩ := hb
      rcases hmem with hmem | hmem
      · split at hmem
        · simp only [List.mem_singleton] at hmem
          subst hmem
          dsimp only
          omega
        · exact absurd hmem (List.not_mem_nil _)
      · split at hmem
        · simp only [List.mem_singleton] at hmem
          subst hmem
          dsimp only
          omega
        · exact absurd hmem (List.not_mem_nil _)

/-- Witness for claim C10 at the spec's boundary-split example. -/
theorem processAnnotationForChangeAndClean_startLine_pos_witness :
    (1 ≤ (⟨3, 8, 0, "ai-generated"⟩ : Annotation).startLine ∧
      wfAnn ⟨3, 8, 0, "ai-generated"⟩ ∧ wfEdit ⟨5, 6, 0, 0, "x", 2, 0, 1⟩) ∧
    ∀ b ∈ processAnnotationForChangeAndClean ⟨3, 8, 0, "ai-generated"⟩
        ⟨5, 6, 0, 0, "x", 2, 0, 1⟩, 1 ≤ b.startLine :=
  ⟨by decide, processAnnotationForChangeAndClean_startLine_pos _ _ (by decide) (by decide)
    (by decide)⟩

/-! ### Structure of the merging scan. -/

/-- The head of the scan's output keeps the start line of the range currently being
merged. -/
theorem squashGo_head_startLine (rest : List Annotation) (last : Annotation) :
    ∃ a t, squashGo last rest = a :: t ∧ a.startLine = last.startLine := by
  induction rest generalizing last with
  | nil => exact ⟨last, [], rfl, rfl⟩
  | cons current rest ih =>
    unfold squashGo
    split
    · obtain ⟨a, t, heq, hs⟩ := ih
        { last with
            endLine := max last.endLine current.endLine
            timestamp :=
              if last.timestamp < current.timestamp then current.timestamp
              else last.timestamp }
      exact ⟨a, t, heq, hs⟩
    · exact ⟨last, squashGo current rest, rfl, rfl⟩

/-- Every range the scan outputs starts at or after the range currently being
merged, provided the remaining input is sorted and starts at or after it. -/
theorem squashGo_startLine_le (rest : List Annotation) (last : Annotation)
    (hsorted : rest.Pairwise leStart) (hge : ∀ x ∈ rest, leStart last x) :
    ∀ y ∈ squashGo last rest, leStart last y := by
  induction rest generalizing last with
  | nil =>
    intro y hy
    unfold squashGo at hy
    simp only [List.mem_singleton] at hy
    subst hy
    exact Int.le_refl _
  | cons current rest ih =>
    intro y hy
    unfold squashGo at hy
    split at hy
    · exact ih
        { last with
            endLine := max last.endLine current.endLine
            timestamp :=
              if last.timestamp < current.timestamp then current.timestamp
              else last.timestamp }
        hsorted.of_cons (fun x hx => hge x (List.mem_cons_of_mem _ hx)) y hy
    · rcases List.mem_cons.mp hy with hy | hy
      · subst hy
        exact Int.le_refl _
      · have hcur : ∀ x ∈ rest, leStart current x := (List.pairwise_cons.mp hsorted).1
        exact Int.le_trans (hge current (List.mem_cons_self _ _))
          (ih current hsorted.of_cons hcur y hy)

/-- The scan preserves well-formedness of the ranges. -/
theorem squashGo_wf (rest : List Annotation) (last : Annotation)
    (hl : wfAnn last) (hr : ∀ x ∈ rest, wfAnn x) :
    ∀ y ∈ squashGo last rest, wfAnn y := by
  induction rest generalizing last with
  | nil =>
    intro y hy
    unfold squashGo at hy
    simp only [List.mem_singleton] at hy
    subst hy
    exact hl
  | cons current rest ih =>
    intro y hy
    unfold squashGo at hy
    split at hy
    · refine ih _ ?_ (fun x hx => hr x (List.mem_cons_of_mem _ hx)) y hy
      exact Int.le_trans hl (Int.le_max_left _ _)
    · rcases List.mem_cons.mp hy with hy | hy
      · subst hy
        exact hl
      · exact ih current (hr current (List.mem_cons_self _ _))
          (fun x hx => hr x (List.mem_cons_of_mem _ hx)) y hy

/-- The scan's output leaves a gap of at least one whole line between consecutive
ranges, provided the remaining input is sorted and starts at or after the range
currently being merged. -/
theorem squashGo_chain (rest : List Annotation) (last : Annotation)
    (hsorted : rest.Pairwise leStart) (hge : ∀ x ∈ rest, leStart last x) :
    (squashGo last rest).Chain' gapped := by
  induction rest generalizing last with
  | nil =>
    unfold squashGo
    exact List.chain'_singleton _
  | cons current rest ih =>
    unfold squashGo
    split
    · exact ih _ hsorted.of_cons (fun x hx => hge x (List.mem_cons_of_mem _ hx))
    · next hnot =>
      have hcur : ∀ x ∈ rest, leStart current x := (List.pairwise_cons.mp hsorted).1
      have hc := ih current hsorted.of_cons hcur
      obtain ⟨a, t, heq, hs⟩ := squashGo_head_startLine rest current
      rw [heq] at hc ⊢
      refine List.chain'_cons.mpr ⟨?_, hc⟩
      unfold gapped
      omega

/-- The scan's output stays sorted by start line. -/
theorem squashGo_sorted (rest : List Annotation) (last : Annotation)
    (hsorted : rest.Pairwise leStart) (hge : ∀ x ∈ rest, leStart last x) :
    (squashGo last rest).Pairwise leStart := by
  induction rest generalizing last with
  | nil =>
    unfold squashGo
    exact List.pairwise_singleton _ _
  | cons current rest ih =>
    unfold squashGo
    split
    · exact ih _ hsorted.of_cons (fun x hx => hge x (List.mem_cons_of_mem _ hx))
    · have hcur : ∀ x ∈ rest, leStart current x := (List.pairwise_cons.mp hsorted).1
      refine List.pairwise_cons.mpr ⟨?_, ih current hsorted.of_cons hcur⟩
      intro y hy
      exact Int.le_trans (hge current (List.mem_cons_self _ _))
        (squashGo_startLine_le rest current hsorted.of_cons hcur y hy)

/-- On input already separated by gaps, the scan is the identity. -/
theorem squashGo_eq_of_chain (rest : List Annotation) (last : Annotation)
    (h : List.Chain' gapped (last :: rest)) : squashGo last rest = last :: rest := by
  induction rest generalizing last with
  | nil => rfl
  | cons current rest ih =>
    have hg : gapped last current := (List.chain'_cons.mp h).1
    unfold squashGo
    rw [if_neg (by unfold gapped at hg; omega)]
    rw [ih current (List.chain'_cons.mp h).2]

/-- For well-formed ranges, consecutive gaps extend to pairwise gaps. -/
theorem chain_gapped_pairwise (l : List Annotation) (hwf : ∀ x ∈ l, wfAnn x)
    (hc : l.Chain' gapped) : l.Pairwise gapped := by
  induction l with
  | nil => exact List.Pairwise.nil
  | cons a l ih =>
    obtain ⟨h1, h2⟩ := List.chain'_cons'.mp hc
    have hp := ih (fun x hx => hwf x (List.mem_cons_of_mem _ hx)) h2
    refine List.pairwise_cons.mpr ⟨?_, hp⟩
    intro y hy
    cases l with
    | nil => cases hy
    | cons b t =>
      have hab : gapped a b := h1 b rfl
      have hwfb : wfAnn b := hwf b (List.mem_cons_of_mem _ (List.mem_cons_self _ _))
      rcases List.mem_cons.mp hy with hy | hy
      · subst hy
        exact hab
      · have hby : gapped b y := (List.pairwise_cons.mp hp).1 y hy
        unfold gapped at hab hby ⊢
        unfold wfAnn at hwfb
        omega

/-- The Range Merger's output is sorted by start line and consecutive outputs are
separated by a gap of at least one whole line. -/
theorem squashOverlappingAnnotations_sorted_chain (l : List Annotation) :
    (squashOverlappingAnnotations l).Pairwise leStart ∧
      (squashOverlappingAnnotations l).Chain' gapped := by
  unfold squashOverlappingAnnotations
  split
  · next h =>
    cases l with
    | nil => exact ⟨List.Pairwise.nil, trivial⟩
    | cons a t =>
      cases t with
      | nil => exact ⟨List.pairwise_singleton _ _, List.chain'_singleton _⟩
      | cons b u => simp only [List.length_cons] at h; omega
  · split
    · exact ⟨List.Pairwise.nil, trivial⟩
    · next first rest heq =>
      have hsorted : (first :: rest).Pairwise leStart := by
        rw [← heq]
        exact List.sorted_insertionSort leStart l
      obtain ⟨hge, hrest⟩ := List.pairwise_cons.mp hsorted
      exact ⟨squashGo_sorted rest first hrest hge, squashGo_chain rest first hrest hge⟩

/-- The Range Merger preserves well-formedness of the ranges. -/
theorem squashOverlappingAnnotations_wf (l : List Annotation)
    (hwf : ∀ x ∈ l, wfAnn x) : ∀ y ∈ squashOverlappingAnnotations l, wfAnn y := by
  unfold squashOverlappingAnnotations
  split
  · exact hwf
  · split
    · intro y hy
      cases hy
    · next first rest heq =>
      have hmem : ∀ x ∈ first :: rest, wfAnn x := by
        intro x hx
        refine hwf x ?_
        rw [← List.mem_insertionSort leStart (l := l)]
        rw [heq]
        exact hx
      exact squashGo_wf rest first (hmem first (List.mem_cons_self _ _))
        (fun x hx => hmem x (List.mem_cons_of_mem _ hx))

/-- On a list that is already sorted and separated by gaps, the Range Merger is the
identity. -/
theorem squashOverlappingAnnotations_eq_self (l : List Annotation)
    (hs : l.Pairwise leStart) (hc : l.Chain' gapped) :
    squashOverlappingAnnotations l = l := by
  unfold squashOverlappingAnnotations
  split
  · rfl
  · have hsort_eq : List.insertionSort leStart l = l := List.Sorted.insertionSort_eq hs
    split
    · next heq =>
      rw [hsort_eq] at heq
      rw [heq]
    · next first rest heq =>
      rw [hsort_eq] at heq
      rw [heq] at hc
      rw [squashGo_eq_of_chain rest first hc, heq]

/-- The spec-worded merging scan computes the same function as the source's scan. -/
theorem mergeScanSpec_eq_squashGo (rest : List Annotation) (last : Annotation) :
    mergeScanSpec last rest = squashGo last rest := by
  induction rest generalizing last with
  | nil => rfl
  | cons current rest ih =>
    unfold mergeScanSpec squashGo
    split
    · exact ih _
    · rw [ih current]

/-- Claim C4: the Range Merger `squashOverlappingAnnotations` computes exactly the
spec's interval merge `mergeAnnotationsSpec`: sort ascending by `startLine`, scan
left to right, merge the next range exactly when
`next.startLine ≤ current.endLine + 1` by extending `current.endLine` to the maximum
and keeping the later of the two timestamps, otherwise close the current range and
start a new one; empty and single-element inputs are returned unchanged. -/
theorem squashOverlappingAnnotations_eq_mergeSpec (l : List Annotation) :
    squashOverlappingAnnotations l = mergeAnnotationsSpec l := by
  unfold squashOverlappingAnnotations mergeAnnotationsSpec
  split
  · rfl
  · split
    · rfl
    · exact (mergeScanSpec_eq_squashGo _ _).symm

/-- Claim C6: the Range Merger is idempotent — merging an already merged annotation
list changes nothing. -/
theorem squashOverlappingAnnotations_idempotent (l : List Annotation) :
    squashOverlappingAnnotations (squashOverlappingAnnotations l) =
      squashOverlappingAnnotations l := by
  obtain ⟨hs, hc⟩ := squashOverlappingAnnotations_sorted_chain l
  exact squashOverlappingAnnotations_eq_self _ hs hc

/-- Claim C7 (counterexample to the claim as stated): a snapshot whose stored
annotations happen to be adjacent (something `applyChange` itself would never
produce, but nothing forbids in a stored snapshot) is changed by an empty,
non-significant commit: the unconditional final merge coalesces `[1,2]` and
`[2,3]`. -/
theorem applyChange_empty_commit_counterexample :
    (applyChange 9
        ⟨[⟨1, 2, 0, "ai-generated"⟩, ⟨2, 3, 0, "ai-generated"⟩], 0, 0⟩
        ⟨1, false, []⟩).highlightedRanges ≠
      [⟨1, 2, 0, "ai-generated"⟩, ⟨2, 3, 0, "ai-generated"⟩] := by
  decide

/-- Claim C7 (amended): for every snapshot whose annotation list is sorted by
`startLine` and has consecutive annotations neither overlapping nor 1-line-adjacent
(the shape every `applyChange` output has), applying a commit with an empty edit
list and `isSignificant = false` returns a snapshot whose annotation list equals the
input's: the empty edit list is an identity transform on such annotation lists. -/
theorem applyChange_empty_commit (now : Int) (s : Snapshot) (v : Int)
    (hs : s.highlightedRanges.Pairwise leStart)
    (hc : s.highlightedRanges.Chain' gapped) :
    (applyChange now s ⟨v, false, []⟩).highlightedRanges = s.highlightedRanges := by
  have hres : (applyChange now s ⟨v, false, []⟩).highlightedRanges =
      squashOverlappingAnnotations s.highlightedRanges := rfl
  rw [hres]
  exact squashOverlappingAnnotations_eq_self _ hs hc

/-- Witness for the amended claim C7 at a concrete sorted, gapped snapshot. -/
theorem applyChange_empty_commit_witness :
    ((⟨[⟨1, 2, 0, "ai-generated"⟩, ⟨5, 6, 0, "ai-generated"⟩], 0, 0⟩ :
          Snapshot).highlightedRanges.Pairwise leStart ∧
      (⟨[⟨1, 2, 0, "ai-generated"⟩, ⟨5, 6, 0, "ai-generated"⟩], 0, 0⟩ :
          Snapshot).highlightedRanges.Chain' gapped) ∧
    (applyChange 9 ⟨[⟨1, 2, 0, "ai-generated"⟩, ⟨5, 6, 0, "ai-generated"⟩], 0, 0⟩
        ⟨3, false, []⟩).highlightedRanges =
      (⟨[⟨1, 2, 0, "ai-generated"⟩, ⟨5, 6, 0, "ai-generated"⟩], 0, 0⟩ :
          Snapshot).highlightedRanges :=
  ⟨⟨by decide, List.chain'_cons.mpr ⟨by decide, List.chain'_singleton _⟩⟩,
    applyChange_empty_commit 9
      ⟨[⟨1, 2, 0, "ai-generated"⟩, ⟨5, 6, 0, "ai-generated"⟩], 0, 0⟩ 3
      (by decide) (List.chain'_cons.mpr ⟨by decide, List.chain'_singleton _⟩)⟩

/-- The Range Transform never outputs an inverted range, given a well-formed input
range. -/
theorem processAnnotationForChangeAndClean_wf (ann : Annotation) (change : ContentChange)
    (h : wfAnn ann) : ∀ b ∈ processAnnotationForChangeAndClean ann change, wfAnn b := by
  intro b hb
  unfold processAnnotationForChangeAndClean at hb
  dsimp only at hb
  split at hb
  · simp only [List.mem_singleton] at hb
    subst hb
    exact h
  · split at hb
    · simp only [List.mem_singleton] at hb
      subst hb
      unfold wfAnn at h ⊢
      dsimp only
      omega
    · simp only [List.mem_filter, decide_eq_true_eq] at hb
      exact hb.2

/-- A single change application preserves well-formedness across the list. -/
theorem updateAndCleanAnnotationsForContentChange_wf (anns : List Annotation)
    (change : ContentChange) (h : ∀ a ∈ anns, wfAnn a) :
    ∀ b ∈ updateAndCleanAnnotationsForContentChange anns change, wfAnn b := by
  intro b hb
  unfold updateAndCleanAnnotationsForContentChange at hb
  simp only [List.mem_flatMap] at hb
  obtain ⟨a, ha, hb⟩ := hb
  exact processAnnotationForChangeAndClean_wf a change (h a ha) b hb

/-- Folding change applications preserves well-formedness. -/
theorem foldl_updateAndClean_wf (cs : List ContentChange) (anns : List Annotation)
    (h : ∀ a ∈ anns, wfAnn a) :
    ∀ b ∈ cs.foldl (fun acc change => updateAndCleanAnnotationsForContentChange acc change)
        anns, wfAnn b := by
  induction cs generalizing anns with
  | nil => simpa using h
  | cons c cs ih =>
    intro b hb
    rw [List.foldl_cons] at hb
    exact ih _ (updateAndCleanAnnotationsForContentChange_wf _ c h) b hb

/-- The Batch Applier preserves well-formedness. -/
theorem updateAndCleanAnnotationsForCommit_wf (anns : List Annotation)
    (changes : List ContentChange) (h : ∀ a ∈ anns, wfAnn a) :
    ∀ b ∈ updateAndCleanAnnotationsForCommit anns changes, wfAnn b :=
  foldl_updateAndClean_wf _ anns h

/-- Synthesized annotations are well-formed when the edits' added-line counts are
non-negative. -/
theorem addAnnotationsForSignificantChanges_wf (now : Int) (cs : List ContentChange)
    (h : ∀ c ∈ cs, 0 ≤ c.addedLines) :
    ∀ b ∈ addAnnotationsForSignificantChanges now cs, wfAnn b := by
  intro b hb
  simp only [addAnnotationsForSignificantChanges, List.mem_map] at hb
  obtain ⟨c, hc, rfl⟩ := hb
  have := h c hc
  unfold wfAnn
  dsimp only
  omega

/-- Claim C3: for every snapshot whose annotations satisfy `startLine ≤ endLine` and
every commit with well-formed edits, the snapshot returned by `applyChange`
satisfies the Snapshot invariant: every annotation in the result has
`startLine ≤ endLine`, and no two distinct annotations in the result overlap or are
exactly 1-line-adjacent. -/
theorem applyChange_invariant (now : Int) (s : Snapshot) (c : Commit)
    (h1 : ∀ a ∈ s.highlightedRanges, wfAnn a)
    (h2 : ∀ e ∈ c.contentChanges, wfEdit e) :
    (∀ a ∈ (applyChange now s c).highlightedRanges, wfAnn a) ∧
      (applyChange now s c).highlightedRanges.Pairwise sepAnn := by
  have hbatch := updateAndCleanAnnotationsForCommit_wf s.highlightedRanges c.contentChanges h1
  have hmid : ∀ x ∈ (if c.isSignificant then
        updateAndCleanAnnotationsForCommit s.highlightedRanges c.contentChanges ++
          addAnnotationsForSignificantChanges now c.contentChanges
      else updateAndCleanAnnotationsForCommit s.highlightedRanges c.contentChanges),
      wfAnn x := by
    split
    · intro x hx
      rcases List.mem_append.mp hx with hx | hx
      · exact hbatch x hx
      · exact addAnnotationsForSignificantChanges_wf now c.contentChanges
          (fun e he => (h2 e he).2.2.1) x hx
    · exact hbatch
  have hres : (applyChange now s c).highlightedRanges =
      squashOverlappingAnnotations (if c.isSignificant then
        updateAndCleanAnnotationsForCommit s.highlightedRanges c.contentChanges ++
          addAnnotationsForSignificantChanges now c.contentChanges
      else updateAndCleanAnnotationsForCommit s.highlightedRanges c.contentChanges) := rfl
  rw [hres]
  refine ⟨squashOverlappingAnnotations_wf _ hmid, ?_⟩
  have hp := chain_gapped_pairwise _ (squashOverlappingAnnotations_wf _ hmid)
    (squashOverlappingAnnotations_sorted_chain _).2
  exact hp.imp fun hg => Or.inl hg

/-- Witness for claim C3 at a concrete snapshot and significant commit. -/
theorem applyChange_invariant_witness :
    ((∀ a ∈ (⟨[⟨1, 5, 0, "ai-generated"⟩], 0, 0⟩ : Snapshot).highlightedRanges, wfAnn a) ∧
      (∀ e ∈ (⟨1, true, [⟨2, 3, 0, 0, "y", 4, 1, 1⟩]⟩ : Commit).contentChanges, wfEdit e)) ∧
    ((∀ a ∈ (applyChange 7 ⟨[⟨1, 5, 0, "ai-generated"⟩], 0, 0⟩
        ⟨1, true, [⟨2, 3, 0, 0, "y", 4, 1, 1⟩]⟩).highlightedRanges, wfAnn a) ∧
      (applyChange 7 ⟨[⟨1, 5, 0, "ai-generated"⟩], 0, 0⟩
        ⟨1, true, [⟨2, 3, 0, 0, "y", 4, 1, 1⟩]⟩).highlightedRanges.Pairwise sepAnn) :=
  ⟨⟨by decide, by decide⟩,
    applyChange_invariant 7 ⟨[⟨1, 5, 0, "ai-generated"⟩], 0, 0⟩
      ⟨1, true, [⟨2, 3, 0, 0, "y", 4, 1, 1⟩]⟩ (by decide) (by decide)⟩
